import Mathlib

/-!
Verification of the document indexing and retrieval pipeline of the
AI-Powered-Personalized-Learning-Copilot repository.

Strings of the Python source are modelled as `List Char`, Python integers as
`Int` (Python integers are unbounded and may go negative, which matters for
the chunking window arithmetic), and Python slicing / `rfind` / `strip` are
modelled by executable functions below that follow Python's semantics.
-/

/-! ## Python string primitives -/

/-- Python slicing `l[i:j]` for int indices: a negative index counts from the
end, and both indices are clamped into `[0, len]`. -/
def pySlice (l : List Char) (i j : Int) : List Char :=
  let n : Int := l.length
  let i' : Int := if i < 0 then max (n + i) 0 else min i n
  let j' : Int := if j < 0 then max (n + j) 0 else min j n
  (l.take j'.toNat).drop i'.toNat

/-- Python `s.rfind(c)` for a single character `c`: the highest index at which
`c` occurs, `-1` when it does not occur. -/
def rfindChar (c : Char) : List Char → Int
  | [] => -1
  | x :: xs =>
    let r := rfindChar c xs
    if 0 ≤ r then r + 1 else if x = c then 0 else -1

/-- Python whitespace characters stripped by `str.strip()` and matched by the
regex class `\s` (restricted to ASCII; the repository's pipeline only ever
meets ASCII whitespace by the time these predicates are applied). -/
def pyIsSpaceB (c : Char) : Bool :=
  c == ' ' || c == '\t' || c == '\n' || c == '\r' || c == Char.ofNat 11 || c == Char.ofNat 12

/-- Remove the maximal run of characters satisfying `p` from the END of the
list (Python `rstrip` with the character class `p`). -/
def rdropWhileR (p : Char → Bool) : List Char → List Char
  | [] => []
  | c :: cs =>
    let r := rdropWhileR p cs
    if r.isEmpty && p c then [] else c :: r

/-- Python `s.strip(chars)` with character class `p`: remove the maximal runs
from both ends. -/
def pyStripWith (p : Char → Bool) (l : List Char) : List Char :=
  rdropWhileR p (l.dropWhile p)

/-- Python `s.strip()` (default whitespace). -/
def pyStrip (l : List Char) : List Char := pyStripWith pyIsSpaceB l

/-! ## PDFProcessor (src/services/pdf_processor.py) -/

/-- A chunk record emitted by `PDFProcessor.chunk_text`:
`{"text": ..., "source": ..., "chunk_id": ...}`. -/
structure Chunk where
  text : List Char
  source : List Char
  chunk_id : Nat
deriving DecidableEq, Repr

/-- `PDFProcessor.__init__` stores the two parameters; the source performs no
validation whatsoever on them. -/
structure PDFProcessor where
  chunk_size : Int
  overlap : Int
deriving DecidableEq, Repr

/-- The adjusted right edge of the window starting at `start`
(`PDFProcessor.chunk_text`, the "try to break at sentence boundary" block):
when the hard edge `start + chunk_size` is not past the end of the text, the
last `'.'` or `'\n'` inside the window moves the edge back, but only when that
break point lies past `chunk_size // 2` (Python floor division). -/
def chunkEnd (cs : Int) (text : List Char) (start : Int) : Int :=
  if start + cs < (text.length : Int) then
    if Int.fdiv cs 2 <
        max (rfindChar '.' (pySlice text start (start + cs)))
          (rfindChar '\n' (pySlice text start (start + cs))) then
      start +
        max (rfindChar '.' (pySlice text start (start + cs)))
          (rfindChar '\n' (pySlice text start (start + cs))) + 1
    else start + cs
  else start + cs

/-- The `while start < text_length` loop of `PDFProcessor.chunk_text`, with an
explicit fuel argument because the source loop does not terminate for every
configuration. Each emitted chunk is instrumented with the character window
`[start, end)` it was cut from (the second and third components), so that the
spec's coverage property can be stated; `PDFProcessor.chunk_text` below
projects the instrumentation away. -/
def chunkAuxI (cs ov : Int) (text src : List Char) :
    Nat → Int → List (Chunk × Int × Int) → Option (List (Chunk × Int × Int))
  | 0, start, acc => if start < (text.length : Int) then none else some acc
  | n + 1, start, acc =>
    if start < (text.length : Int) then
      chunkAuxI cs ov text src n (chunkEnd cs text start - ov)
        (acc ++ [(⟨pyStrip (pySlice text start (chunkEnd cs text start)), src, acc.length⟩,
          start, chunkEnd cs text start)])
    else some acc

/-- `PDFProcessor.chunk_text(text, source_file)`. The fuel `text.length + 1`
is enough whenever the window start strictly advances on every iteration, so
`none` means the source loop does not terminate that fast (for the
configurations proved below the loop terminates within this fuel exactly when
it terminates at all). -/
def PDFProcessor.chunk_text (p : PDFProcessor) (text source_file : List Char) :
    Option (List Chunk) :=
  (chunkAuxI p.chunk_size p.overlap text source_file (text.length + 1) 0 []).map
    (fun l => l.map (fun e => e.1))

/-- The chunking loop of `PDFProcessor.chunk_text` terminates on `text`. -/
def ChunkTerminates (p : PDFProcessor) (text src : List Char) : Prop :=
  ∃ (n : Nat) (res : List (Chunk × Int × Int)),
    chunkAuxI p.chunk_size p.overlap text src n 0 [] = some res

/-! ### Non-termination of the chunking loop

With `chunk_size = 10` and `overlap = 9` (an admissible `0 < overlap <
chunk_size` configuration) on the text below, the sentence-boundary break
moves the window end back to index 8, the next start becomes `8 - 9 = -1`,
Python slicing then yields the empty window (a negative start counts from the
end of the 18-character text), no break applies, and the next start is
`9 - 9 = 0` again: the loop cycles between starts `0` and `-1` forever. -/

/-- The 18-character text driving the cycle. -/
def cycleText : List Char := "aaaaaaa.XXXXXXXXXX".toList

/-- Source label used in concrete computations. -/
def srcF : List Char := "f".toList

lemma chunkAuxI_cycle_step0 (n : Nat) (acc : List (Chunk × Int × Int)) :
    chunkAuxI 10 9 cycleText srcF (n + 1) 0 acc =
      chunkAuxI 10 9 cycleText srcF n (-1)
        (acc ++ [(⟨"aaaaaaa.".toList, srcF, acc.length⟩, 0, 8)]) := rfl

lemma chunkAuxI_cycle_step1 (n : Nat) (acc : List (Chunk × Int × Int)) :
    chunkAuxI 10 9 cycleText srcF (n + 1) (-1) acc =
      chunkAuxI 10 9 cycleText srcF n 0
        (acc ++ [(⟨[], srcF, acc.length⟩, -1, 9)]) := rfl

/-- For every amount of fuel, the loop at `(chunk_size, overlap) = (10, 9)`
on `cycleText` is still running: it never terminates. -/
lemma chunkAuxI_cycle_none : ∀ (n : Nat),
    (∀ acc, chunkAuxI 10 9 cycleText srcF n 0 acc = none) ∧
    (∀ acc, chunkAuxI 10 9 cycleText srcF n (-1) acc = none) := by
  intro n
  induction n with
  | zero => exact ⟨fun acc => rfl, fun acc => rfl⟩
  | succ n ih =>
    exact ⟨fun acc => (chunkAuxI_cycle_step0 n acc).trans (ih.2 _),
      fun acc => (chunkAuxI_cycle_step1 n acc).trans (ih.1 _)⟩

/-! ### Non-termination when `overlap = chunk_size` (C5's missing guard) -/

lemma chunkAuxI_eq_step (n : Nat) (acc : List (Chunk × Int × Int)) :
    chunkAuxI 100 100 ("a".toList) srcF (n + 1) 0 acc =
      chunkAuxI 100 100 ("a".toList) srcF n 0
        (acc ++ [(⟨"a".toList, srcF, acc.length⟩, 0, 100)]) := rfl

lemma chunkAuxI_eq_none : ∀ (n : Nat) (acc : List (Chunk × Int × Int)),
    chunkAuxI 100 100 ("a".toList) srcF n 0 acc = none := by
  intro n
  induction n with
  | zero => exact fun acc => rfl
  | succ n ih => exact fun acc => (chunkAuxI_eq_step n acc).trans (ih _)

/-! ### Termination and coverage for moderate overlaps

When `overlap ≤ chunk_size // 2 + 1` the window start strictly advances on
every iteration: the hard edge advances it by `chunk_size - overlap ≥ 1`, and
a sentence-boundary break point `bp > chunk_size // 2` advances it by
`bp + 1 - overlap ≥ 1`. -/

lemma chunkEnd_facts (cs ov : Int) (text : List Char) (start : Int)
    (_h1 : 0 < ov) (h2 : ov < cs) (h3 : ov ≤ Int.fdiv cs 2 + 1) :
    start + 1 ≤ chunkEnd cs text start - ov := by
  unfold chunkEnd
  split_ifs with hlen hbp
  · omega
  · omega
  · omega

lemma chunkAuxI_cover (cs ov : Int) (text src : List Char)
    (h1 : 0 < ov) (h2 : ov < cs) (h3 : ov ≤ Int.fdiv cs 2 + 1) :
    ∀ (n : Nat) (start : Int) (acc : List (Chunk × Int × Int)),
      0 ≤ start → (text.length : Int) ≤ start + n →
      ∃ res, chunkAuxI cs ov text src n start acc = some res ∧
        (∀ e ∈ acc, e ∈ res) ∧
        (∀ k : Nat, start ≤ (k : Int) → k < text.length →
          ∃ e ∈ res, e.2.1 ≤ (k : Int) ∧ (k : Int) < e.2.2) := by
  intro n
  induction n with
  | zero =>
    intro start acc h0 hfuel
    refine ⟨acc, ?_, fun e he => he, ?_⟩
    · simp only [chunkAuxI]
      rw [if_neg (by omega)]
    · intro k hk1 hk2
      exfalso
      have : (k : Int) < (text.length : Int) := by exact_mod_cast hk2
      omega
  | succ n ih =>
    intro start acc h0 hfuel
    by_cases hlt : start < (text.length : Int)
    · have hstep := chunkEnd_facts cs ov text start h1 h2 h3
      obtain ⟨res, heq, hsub, hcov⟩ := ih (chunkEnd cs text start - ov)
        (acc ++ [(⟨pyStrip (pySlice text start (chunkEnd cs text start)), src, acc.length⟩,
          start, chunkEnd cs text start)])
        (by omega) (by push_cast at hfuel ⊢; omega)
      refine ⟨res, ?_, ?_, ?_⟩
      · simp only [chunkAuxI]
        rw [if_pos hlt]
        exact heq
      · intro e he
        exact hsub e (List.mem_append_left _ he)
      · intro k hk1 hk2
        by_cases hkE : (k : Int) < chunkEnd cs text start
        · exact ⟨_, hsub _ (List.mem_append_right _ (List.mem_singleton_self _)), hk1, hkE⟩
        · exact hcov k (by omega) hk2
    · refine ⟨acc, ?_, fun e he => he, ?_⟩
      · simp only [chunkAuxI]
        rw [if_neg hlt]
      · intro k hk1 hk2
        exfalso
        have : (k : Int) < (text.length : Int) := by exact_mod_cast hk2
        omega

/-! ## Claim C1 -/

/-- C1 (counterexample): the claim "for every configuration with
`0 < overlap < chunk_size` the chunking loop terminates" is false: at
`chunk_size = 10`, `overlap = 9` (so `0 < 9 < 10`) on the 18-character text
`cycleText`, the loop of `PDFProcessor.chunk_text` never terminates, and the
fuelled model returns `none`. -/
theorem chunk_text_cover_cx :
    ¬ ChunkTerminates (PDFProcessor.mk 10 9) cycleText srcF ∧
    (PDFProcessor.mk 10 9).chunk_text cycleText srcF = none := by
  constructor
  · rintro ⟨n, res, hres⟩
    rw [(chunkAuxI_cycle_none n).1 []] at hres
    exact Option.noConfusion hres
  · show (chunkAuxI 10 9 cycleText srcF (cycleText.length + 1) 0 []).map _ = none
    rw [(chunkAuxI_cycle_none (cycleText.length + 1)).1 []]
    rfl

/-- C1 (amended): for every text and every configuration with
`0 < overlap < chunk_size` AND `overlap ≤ chunk_size // 2 + 1`, the chunking
loop of `PDFProcessor.chunk_text` terminates, and the character windows
`[start, end)` of the emitted chunks jointly cover every index of the text. -/
theorem chunk_text_cover (cs ov : Int) (text src : List Char)
    (h1 : 0 < ov) (h2 : ov < cs) (h3 : ov ≤ Int.fdiv cs 2 + 1) :
    ∃ res, chunkAuxI cs ov text src (text.length + 1) 0 [] = some res ∧
      (PDFProcessor.mk cs ov).chunk_text text src = some (res.map (fun e => e.1)) ∧
      (∀ k : Nat, k < text.length → ∃ e ∈ res, e.2.1 ≤ (k : Int) ∧ (k : Int) < e.2.2) := by
  obtain ⟨res, heq, -, hcov⟩ :=
    chunkAuxI_cover cs ov text src h1 h2 h3 (text.length + 1) 0 [] le_rfl (by push_cast; omega)
  refine ⟨res, heq, ?_, fun k hk => hcov k (Int.natCast_nonneg k) hk⟩
  show (chunkAuxI cs ov text src (text.length + 1) 0 []).map _ = _
  rw [heq]
  rfl

/-- C1 (witness): the amended theorem applied at the concrete configuration
`(chunk_size, overlap) = (10, 3)` on the text `"ab"`. -/
theorem chunk_text_cover_witness :
    (0 : Int) < 3 ∧ (3 : Int) < 10 ∧ (3 : Int) ≤ Int.fdiv 10 2 + 1 ∧
    ∃ res, chunkAuxI 10 3 ("ab".toList) srcF (("ab".toList).length + 1) 0 [] = some res ∧
      (PDFProcessor.mk 10 3).chunk_text ("ab".toList) srcF = some (res.map (fun e => e.1)) ∧
      (∀ k : Nat, k < ("ab".toList).length →
        ∃ e ∈ res, e.2.1 ≤ (k : Int) ∧ (k : Int) < e.2.2) :=
  ⟨by decide, by decide, by decide,
    chunk_text_cover 10 3 ("ab".toList) srcF (by decide) (by decide) (by decide)⟩

/-! ## Claim C5 -/

/-- C5: `PDFProcessor.__init__` performs NO validation: constructing the
processor with `overlap = chunk_size = 100` succeeds (the fields are simply
stored), and the subsequent chunking loop then fails to advance and never
terminates even on the one-character text `"a"`. This contradicts the spec's
requirement that `overlap >= chunk_size` be rejected at construction time. -/
theorem pdfprocessor_init_no_validation :
    (PDFProcessor.mk 100 100).overlap = (PDFProcessor.mk 100 100).chunk_size ∧
    (∀ (n : Nat) (acc : List (Chunk × Int × Int)),
      chunkAuxI (PDFProcessor.mk 100 100).chunk_size (PDFProcessor.mk 100 100).overlap
        ("a".toList) srcF n 0 acc = none) ∧
    (PDFProcessor.mk 100 100).chunk_text ("a".toList) srcF = none := by
  refine ⟨rfl, chunkAuxI_eq_none, ?_⟩
  show (chunkAuxI 100 100 ("a".toList) srcF (("a".toList).length + 1) 0 []).map _ = none
  rw [chunkAuxI_eq_none (("a".toList).length + 1) []]
  rfl

/-! ## Claim C3 -/

/-- C3 (counterexample): a non-empty text strictly shorter than `chunk_size`
can produce more than one chunk. With `chunk_size = 3`, `overlap = 2` (an
admissible `0 < overlap < chunk_size` configuration) the two-character text
`"ab"` yields TWO chunks, not one: after the first window `[0, 3)` the start
advances to `3 - 2 = 1 < 2`, so a second (overlapping) chunk `"b"` is cut. -/
theorem chunk_text_single_cx :
    (PDFProcessor.mk 3 2).chunk_text "ab".toList srcF =
      some [⟨"ab".toList, srcF, 0⟩, ⟨"b".toList, srcF, 1⟩] ∧
    ((PDFProcessor.mk 3 2).chunk_text "ab".toList srcF).map List.length ≠ some 1 := by
  constructor
  · decide
  · decide

lemma pySlice_zero_of_le (text : List Char) (j : Int) (h0 : 0 ≤ j)
    (h : (text.length : Int) ≤ j) : pySlice text 0 j = text := by
  simp only [pySlice]
  rw [if_neg (lt_irrefl (0 : Int)), if_neg (by omega), min_eq_left (Int.natCast_nonneg _),
    min_eq_right h]
  simp

lemma chunkEnd_no_break (cs : Int) (text : List Char) (start : Int)
    (h : ¬ start + cs < (text.length : Int)) : chunkEnd cs text start = start + cs := by
  unfold chunkEnd
  rw [if_neg h]

/-- C3 (amended): a NON-EMPTY text of length at most `chunk_size - overlap`
produces exactly one chunk (the whole text, stripped); a text with
`chunk_size - overlap < length < chunk_size` may produce several. -/
theorem chunk_text_single (cs ov : Int) (text src : List Char)
    (h1 : 0 < ov) (h2 : ov < cs) (h3 : text ≠ [])
    (h4 : (text.length : Int) + ov ≤ cs) :
    (PDFProcessor.mk cs ov).chunk_text text src = some [⟨pyStrip text, src, 0⟩] := by
  have hlen : 1 ≤ text.length := List.length_pos.mpr h3
  obtain ⟨m, hm⟩ : ∃ m, text.length = m + 1 := ⟨text.length - 1, by omega⟩
  have hlen' : (0 : Int) < (text.length : Int) := by exact_mod_cast hlen
  show (chunkAuxI cs ov text src (text.length + 1) 0 []).map _ = _
  rw [hm]
  simp only [chunkAuxI]
  rw [if_pos hlen']
  rw [chunkEnd_no_break cs text 0 (by omega)]
  rw [pySlice_zero_of_le text (0 + cs) (by omega) (by omega)]
  rw [if_neg (show ¬ (0 + cs - ov < (text.length : Int)) by omega)]
  rfl

/-- C3 (witness): the amended theorem applied at `(chunk_size, overlap) =
(10, 2)` on the three-character text `"abc"` (`3 + 2 ≤ 10`). -/
theorem chunk_text_single_witness :
    (0 : Int) < 2 ∧ (2 : Int) < 10 ∧ "abc".toList ≠ [] ∧
    (("abc".toList).length : Int) + 2 ≤ 10 ∧
    (PDFProcessor.mk 10 2).chunk_text "abc".toList srcF =
      some [⟨pyStrip "abc".toList, srcF, 0⟩] :=
  ⟨by decide, by decide, by decide, by decide,
    chunk_text_single 10 2 "abc".toList srcF (by decide) (by decide) (by decide) (by decide)⟩

/-! ## Claim C8: every chunk text is `strip`-idempotent -/

lemma dropWhile_idem (p : Char → Bool) (l : List Char) :
    (l.dropWhile p).dropWhile p = l.dropWhile p := by
  induction l with
  | nil => rfl
  | cons c cs ih =>
    by_cases h : p c
    · rw [List.dropWhile_cons_of_pos h, ih]
    · rw [List.dropWhile_cons_of_neg h, List.dropWhile_cons_of_neg h]

lemma rdropWhileR_eq_nil_iff (p : Char → Bool) (l : List Char) :
    rdropWhileR p l = [] ↔ ∀ c ∈ l, p c = true := by
  induction l with
  | nil => simp [rdropWhileR]
  | cons c cs ih =>
    simp only [rdropWhileR]
    by_cases h : (rdropWhileR p cs).isEmpty && p c
    · rw [if_pos h]
      simp only [Bool.and_eq_true, List.isEmpty_iff] at h
      constructor
      · intro _ x hx
        rcases List.mem_cons.mp hx with rfl | hx
        · exact h.2
        · exact ih.mp h.1 x hx
      · intro _
        rfl
    · rw [if_neg h]
      simp only [Bool.and_eq_true, List.isEmpty_iff] at h
      constructor
      · intro hx; exact absurd hx (List.cons_ne_nil _ _)
      · intro hall
        exact absurd ⟨ih.mpr fun x hx => hall x (List.mem_cons_of_mem _ hx),
          hall c (List.mem_cons_self _ _)⟩ h

lemma dropWhile_rdropWhileR_comm (p : Char → Bool) (l : List Char) :
    (rdropWhileR p l).dropWhile p = rdropWhileR p (l.dropWhile p) := by
  induction l with
  | nil => rfl
  | cons c cs ih =>
    by_cases hc : p c
    · simp only [rdropWhileR, List.dropWhile_cons_of_pos hc]
      by_cases hr : (rdropWhileR p cs).isEmpty && p c
      · rw [if_pos hr]
        simp only [Bool.and_eq_true, List.isEmpty_iff] at hr
        have hall := (rdropWhileR_eq_nil_iff p cs).mp hr.1
        rw [List.dropWhile_nil, show List.dropWhile p cs = [] from
          List.dropWhile_eq_nil_iff.mpr hall]
        rfl
      · rw [if_neg hr]
        rw [List.dropWhile_cons_of_pos hc, ih]
    · simp only [rdropWhileR, List.dropWhile_cons_of_neg hc]
      rw [if_neg (by simp [hc])]
      rw [List.dropWhile_cons_of_neg hc]

lemma rdropWhileR_idem (p : Char → Bool) (l : List Char) :
    rdropWhileR p (rdropWhileR p l) = rdropWhileR p l := by
  induction l with
  | nil => rfl
  | cons c cs ih =>
    simp only [rdropWhileR]
    by_cases h : (rdropWhileR p cs).isEmpty && p c
    · rw [if_pos h]
      rfl
    · rw [if_neg h]
      simp only [rdropWhileR, ih]
      rw [if_neg h]

lemma pyStrip_idem (l : List Char) : pyStrip (pyStrip l) = pyStrip l := by
  show pyStripWith _ (pyStripWith _ l) = pyStripWith _ l
  unfold pyStripWith
  rw [dropWhile_rdropWhileR_comm, dropWhile_idem, rdropWhileR_idem]

lemma chunkAuxI_trimmed (cs ov : Int) (text src : List Char) :
    ∀ (n : Nat) (start : Int) (acc res : List (Chunk × Int × Int)),
      (∀ e ∈ acc, pyStrip e.1.text = e.1.text) →
      chunkAuxI cs ov text src n start acc = some res →
      ∀ e ∈ res, pyStrip e.1.text = e.1.text := by
  intro n
  induction n with
  | zero =>
    intro start acc res hacc heq
    simp only [chunkAuxI] at heq
    by_cases h : start < (text.length : Int)
    · rw [if_pos h] at heq
      exact absurd heq (by simp)
    · rw [if_neg h] at heq
      have h2 := Option.some_injective _ heq
      subst h2
      exact hacc
  | succ n ih =>
    intro start acc res hacc heq
    simp only [chunkAuxI] at heq
    by_cases h : start < (text.length : Int)
    · rw [if_pos h] at heq
      refine ih _ _ res ?_ heq
      intro e he
      rcases List.mem_append.mp he with h | h
      · exact hacc e h
      · rw [List.mem_singleton.mp h]
        exact pyStrip_idem _
    · rw [if_neg h] at heq
      have h2 := Option.some_injective _ heq
      subst h2
      exact hacc

/-- C8 (counterexample): a chunk's text can be EMPTY: chunking the non-empty
all-whitespace text `"   "` with the default configuration
`(chunk_size, overlap) = (1000, 200)` emits exactly one chunk whose stripped
text is the empty string, refuting "non-empty" in the claim. -/
theorem chunk_text_trimmed_cx :
    (PDFProcessor.mk 1000 200).chunk_text "   ".toList srcF = some [⟨[], srcF, 0⟩] := by
  decide

/-- C8 (amended): every chunk emitted by `PDFProcessor.chunk_text` has a text
field that is whitespace-trimmed (it equals its own `strip`), for every input
text, every configuration and every chunk of the returned sequence; the text
may however be empty (see the counterexample). -/
theorem chunk_text_trimmed (p : PDFProcessor) (text src : List Char) (res : List Chunk)
    (h : p.chunk_text text src = some res) :
    ∀ c ∈ res, pyStrip c.text = c.text := by
  intro c hc
  unfold PDFProcessor.chunk_text at h
  rcases hr : chunkAuxI p.chunk_size p.overlap text src (text.length + 1) 0 [] with - | l
  · rw [hr] at h
    exact Option.noConfusion h
  · rw [hr] at h
    have hres : res = l.map (fun e => e.1) := (Option.some_injective _ h.symm)
    rw [hres] at hc
    obtain ⟨e, he, hec⟩ := List.mem_map.mp hc
    rw [← hec]
    exact chunkAuxI_trimmed p.chunk_size p.overlap text src (text.length + 1) 0 [] l
      (fun e he => absurd he (List.not_mem_nil e)) hr e he

/-- C8 (witness): the amended theorem applied to the concrete run on `"ab"`
with the default configuration. -/
theorem chunk_text_trimmed_witness :
    (PDFProcessor.mk 1000 200).chunk_text "ab".toList srcF = some [⟨"ab".toList, srcF, 0⟩] ∧
    ∀ c ∈ [(⟨"ab".toList, srcF, 0⟩ : Chunk)], pyStrip c.text = c.text :=
  ⟨by decide,
    chunk_text_trimmed (PDFProcessor.mk 1000 200) "ab".toList srcF
      [⟨"ab".toList, srcF, 0⟩] (by decide)⟩

/-! ## Namespace resolution (ChromaVectorStore.get_or_create_collection,
src/services/vector_store.py)

The sanitization steps are modelled one to one. `Char.toLower` models Python
`str.lower()` per character (they agree on ASCII; a non-ASCII character that
Python would lowercase differently is removed by the following filter step in
both models, except for exotic case-foldings into ASCII that do not affect
the constraint properties proved below). -/

/-- `a-z`. -/
def isLowerAZ (c : Char) : Bool := 'a' ≤ c && c ≤ 'z'

/-- `0-9`. -/
def isDigit09 (c : Char) : Bool := '0' ≤ c && c ≤ '9'

/-- Python `str.isalnum()` restricted to ASCII (every character this model
actually tests it on is in `[a-z0-9_]`). -/
def pyIsAlnum (c : Char) : Bool := c.isAlpha || c.isDigit

/-- The class kept by `re.sub(r'[^a-z0-9\s\-_]', '', ...)`. -/
def keepChar (c : Char) : Bool :=
  isLowerAZ c || isDigit09 c || pyIsSpaceB c || c == '-' || c == '_'

/-- The class collapsed by `re.sub(r'[\s_-]+', '_', ...)`. -/
def isSep (c : Char) : Bool := pyIsSpaceB c || c == '_' || c == '-'

/-- The class stripped by `.strip('_-')` / `.rstrip('_-')`. -/
def isUD (c : Char) : Bool := c == '_' || c == '-'

/-- `re.sub(r'[\s_-]+', '_', s)`: replace every maximal run of separators by
a single underscore. The boolean state records whether the previous character
was part of a separator run. -/
def collapseSep : Bool → List Char → List Char
  | _, [] => []
  | prev, c :: cs =>
    if isSep c then
      if prev then collapseSep true cs else '_' :: collapseSep true cs
    else c :: collapseSep false cs

/-- Python `if not s[0].isalnum(): s = 'c' + s[1:]`. -/
def fixFirst : List Char → List Char
  | [] => []
  | c :: r => if pyIsAlnum c then c :: r else 'c' :: r

/-- Python `if not s[-1].isalnum(): s = s[:-1] + 'c'`. -/
def fixLast : List Char → List Char
  | [] => []
  | [c] => if pyIsAlnum c then [c] else ['c']
  | c :: d :: t => c :: fixLast (d :: t)

/-- The collection-name sanitization of
`ChromaVectorStore.get_or_create_collection`, step for step:
lowercase; drop characters outside `[a-z0-9\s\-_]`; collapse separator runs
to `'_'`; strip `'_'`/`'-'` from both ends; pad with `"_col"` when shorter
than 3; truncate to 63 and rstrip `'_'`/`'-'` when longer; force the first
and last character alphanumeric with the filler `'c'`. -/
def resolveCollectionName (course : List Char) : List Char :=
  let s1 := course.map Char.toLower
  let s2 := s1.filter keepChar
  let s3 := collapseSep false s2
  let s4 := pyStripWith isUD s3
  let s5 := if s4.length < 3 then s4 ++ ('_' :: 'c' :: 'o' :: 'l' :: []) else s4
  let s6 := if 63 < s5.length then rdropWhileR isUD (s5.take 63) else s5
  fixLast (fixFirst s6)

/-! ### Facts about the sanitization pipeline -/

/-- No two adjacent underscores. -/
def noAdj : List Char → Bool
  | [] => true
  | [_] => true
  | a :: b :: t => !(a == '_' && b == '_') && noAdj (b :: t)

lemma noAdj_cons_iff (a : Char) (l : List Char) :
    noAdj (a :: l) = true ↔
      (∀ d, l.head? = some d → ¬(a = '_' ∧ d = '_')) ∧ noAdj l = true := by
  cases l with
  | nil => simp [noAdj]
  | cons b t =>
    simp only [noAdj, Bool.and_eq_true, Bool.not_eq_true', Bool.and_eq_false_iff,
      List.head?_cons]
    constructor
    · rintro ⟨h1, h2⟩
      refine ⟨?_, h2⟩
      rintro d hd ⟨rfl, rfl⟩
      rcases h1 with h | h <;> simp_all
    · rintro ⟨h1, h2⟩
      refine ⟨?_, h2⟩
      by_cases ha : a = '_'
      · by_cases hb : b = '_'
        · exact absurd ⟨ha, hb⟩ (h1 b rfl)
        · right; simpa using hb
      · left; simpa using ha

lemma collapse_true_head : ∀ (s : List Char) (d : Char),
    (collapseSep true s).head? = some d → isSep d = false := by
  intro s
  induction s with
  | nil => intro d hd; exact absurd hd (by simp [collapseSep])
  | cons c cs ih =>
    intro d hd
    by_cases h : isSep c
    · rw [show collapseSep true (c :: cs) = collapseSep true cs by
        simp [collapseSep, h]] at hd
      exact ih d hd
    · rw [show collapseSep true (c :: cs) = c :: collapseSep false cs by
        simp [collapseSep, h]] at hd
      simp only [List.head?_cons, Option.some_inj] at hd
      rw [← hd]
      exact Bool.eq_false_iff.mpr h

lemma collapse_mem : ∀ (b : Bool) (s : List Char) (c : Char),
    c ∈ collapseSep b s → c = '_' ∨ (c ∈ s ∧ isSep c = false) := by
  intro b s
  induction s generalizing b with
  | nil => intro c hc; exact absurd hc (by simp [collapseSep])
  | cons c0 cs ih =>
    intro c hc
    by_cases h : isSep c0
    · cases b with
      | true =>
        rw [show collapseSep true (c0 :: cs) = collapseSep true cs by
          simp [collapseSep, h]] at hc
        rcases ih true c hc with h1 | h1
        · exact Or.inl h1
        · exact Or.inr ⟨List.mem_cons_of_mem _ h1.1, h1.2⟩
      | false =>
        rw [show collapseSep false (c0 :: cs) = '_' :: collapseSep true cs by
          simp [collapseSep, h]] at hc
        rcases List.mem_cons.mp hc with h1 | h1
        · exact Or.inl h1
        · rcases ih true c h1 with h2 | h2
          · exact Or.inl h2
          · exact Or.inr ⟨List.mem_cons_of_mem _ h2.1, h2.2⟩
    · rw [show collapseSep b (c0 :: cs) = c0 :: collapseSep false cs by
        simp [collapseSep, h]] at hc
      rcases List.mem_cons.mp hc with h1 | h1
      · exact Or.inr ⟨h1 ▸ List.mem_cons_self _ _, h1 ▸ Bool.eq_false_iff.mpr h⟩
      · rcases ih false c h1 with h2 | h2
        · exact Or.inl h2
        · exact Or.inr ⟨List.mem_cons_of_mem _ h2.1, h2.2⟩

lemma noAdj_collapse : ∀ (b : Bool) (s : List Char), noAdj (collapseSep b s) = true := by
  intro b s
  induction s generalizing b with
  | nil => rfl
  | cons c cs ih =>
    by_cases h : isSep c
    · cases b with
      | true =>
        rw [show collapseSep true (c :: cs) = collapseSep true cs by simp [collapseSep, h]]
        exact ih true
      | false =>
        rw [show collapseSep false (c :: cs) = '_' :: collapseSep true cs by
          simp [collapseSep, h]]
        rw [noAdj_cons_iff]
        refine ⟨?_, ih true⟩
        rintro d hd ⟨-, rfl⟩
        have := collapse_true_head cs '_' hd
        simp [isSep] at this
    · rw [show collapseSep b (c :: cs) = c :: collapseSep false cs by simp [collapseSep, h]]
      rw [noAdj_cons_iff]
      refine ⟨?_, ih false⟩
      rintro d hd ⟨rfl, -⟩
      simp [isSep] at h

lemma noAdj_tail (a : Char) (l : List Char) (h : noAdj (a :: l) = true) : noAdj l = true :=
  ((noAdj_cons_iff a l).mp h).2

lemma noAdj_dropWhile (p : Char → Bool) (l : List Char) (h : noAdj l = true) :
    noAdj (l.dropWhile p) = true := by
  induction l with
  | nil => exact h
  | cons c cs ih =>
    by_cases hc : p c
    · rw [List.dropWhile_cons_of_pos hc]
      exact ih (noAdj_tail c cs h)
    · rw [List.dropWhile_cons_of_neg hc]
      exact h

lemma rdropWhileR_shape (p : Char → Bool) (c : Char) (cs : List Char) :
    rdropWhileR p (c :: cs) = [] ∨ rdropWhileR p (c :: cs) = c :: rdropWhileR p cs := by
  simp only [rdropWhileR]
  by_cases h : (rdropWhileR p cs).isEmpty && p c
  · exact Or.inl (by rw [if_pos h])
  · exact Or.inr (by rw [if_neg h])

lemma noAdj_rdropWhileR (p : Char → Bool) (l : List Char) (h : noAdj l = true) :
    noAdj (rdropWhileR p l) = true := by
  induction l with
  | nil => exact h
  | cons c cs ih =>
    rcases rdropWhileR_shape p c cs with hs | hs
    · rw [hs]; rfl
    · rw [hs, noAdj_cons_iff]
      refine ⟨?_, ih (noAdj_tail c cs h)⟩
      intro d hd hpair
      cases cs with
      | nil => simp [rdropWhileR] at hd
      | cons e cs' =>
        rcases rdropWhileR_shape p e cs' with hs' | hs'
        · rw [hs'] at hd; exact Option.noConfusion hd
        · rw [hs'] at hd
          simp only [List.head?_cons, Option.some_inj] at hd
          subst hd
          exact (((noAdj_cons_iff c (e :: cs')).mp h).1 e rfl) hpair

lemma head?_take (l : List Char) (n : Nat) (d : Char) (h : (l.take n).head? = some d) :
    l.head? = some d := by
  cases l with
  | nil => simp at h
  | cons c cs =>
    cases n with
    | zero => simp at h
    | succ n => simpa using h

lemma noAdj_take (l : List Char) (n : Nat) (h : noAdj l = true) :
    noAdj (l.take n) = true := by
  induction l generalizing n with
  | nil => simpa using h
  | cons c cs ih =>
    cases n with
    | zero => rfl
    | succ n =>
      rw [List.take_succ_cons, noAdj_cons_iff]
      refine ⟨?_, ih n (noAdj_tail c cs h)⟩
      intro d hd
      exact ((noAdj_cons_iff c cs).mp h).1 d (head?_take cs n d hd)

lemma rdropWhileR_length_le (p : Char → Bool) (l : List Char) :
    (rdropWhileR p l).length ≤ l.length := by
  induction l with
  | nil => exact le_rfl
  | cons c cs ih =>
    rcases rdropWhileR_shape p c cs with hs | hs
    · rw [hs]; simp
    · rw [hs]; simpa using ih

lemma rdropWhileR_length_ge (l : List Char) (hna : noAdj l = true)
    (hnd : ∀ c ∈ l, c ≠ '-') : l.length ≤ (rdropWhileR isUD l).length + 1 := by
  induction l with
  | nil => simp
  | cons c cs ih =>
    simp only [rdropWhileR]
    by_cases h : (rdropWhileR isUD cs).isEmpty && isUD c
    · rw [if_pos h]
      simp only [Bool.and_eq_true, List.isEmpty_iff] at h
      have hc : c = '_' := by
        have := hnd c (List.mem_cons_self _ _)
        rcases (by simpa [isUD] using h.2 : c = '_' ∨ c = '-') with h1 | h1
        · exact h1
        · exact absurd h1 this
      cases cs with
      | nil => simp
      | cons d cs' =>
        exfalso
        have hall := (rdropWhileR_eq_nil_iff isUD (d :: cs')).mp h.1
        have hd : d = '_' := by
          have := hnd d (List.mem_cons_of_mem _ (List.mem_cons_self _ _))
          rcases (by simpa [isUD] using hall d (List.mem_cons_self _ _) : d = '_' ∨ d = '-')
            with h1 | h1
          · exact h1
          · exact absurd h1 this
        exact (((noAdj_cons_iff c (d :: cs')).mp hna).1 d rfl) ⟨hc, hd⟩
    · rw [if_neg h]
      have := ih (noAdj_tail c cs hna) (fun x hx => hnd x (List.mem_cons_of_mem _ hx))
      simpa using this

lemma rdropWhileR_subset (p : Char → Bool) (l : List Char) (c : Char)
    (h : c ∈ rdropWhileR p l) : c ∈ l := by
  induction l with
  | nil => exact absurd h (List.not_mem_nil c)
  | cons x xs ih =>
    rcases rdropWhileR_shape p x xs with hs | hs
    · rw [hs] at h; exact absurd h (List.not_mem_nil c)
    · rw [hs] at h
      rcases List.mem_cons.mp h with h1 | h1
      · exact h1 ▸ List.mem_cons_self _ _
      · exact List.mem_cons_of_mem _ (ih h1)

lemma mem_dropWhile (p : Char → Bool) (l : List Char) (c : Char)
    (h : c ∈ l.dropWhile p) : c ∈ l := by
  induction l with
  | nil => exact h
  | cons x xs ih =>
    by_cases hx : p x
    · rw [List.dropWhile_cons_of_pos hx] at h
      exact List.mem_cons_of_mem _ (ih h)
    · rw [List.dropWhile_cons_of_neg hx] at h
      exact h

lemma fixFirst_length : ∀ l : List Char, (fixFirst l).length = l.length
  | [] => rfl
  | c :: r => by by_cases h : pyIsAlnum c <;> simp [fixFirst, h]

lemma fixLast_length : ∀ l : List Char, (fixLast l).length = l.length
  | [] => rfl
  | [c] => by by_cases h : pyIsAlnum c <;> simp [fixLast, h]
  | c :: d :: t => by
    simp only [fixLast, List.length_cons, fixLast_length (d :: t)]

lemma fixFirst_mem : ∀ (l : List Char) (x : Char), x ∈ fixFirst l → x ∈ l ∨ x = 'c'
  | [], x, h => Or.inl h
  | c :: r, x, h => by
    by_cases hc : pyIsAlnum c
    · simp only [fixFirst, if_pos hc] at h
      exact Or.inl h
    · simp only [fixFirst, if_neg hc] at h
      rcases List.mem_cons.mp h with h1 | h1
      · exact Or.inr h1
      · exact Or.inl (List.mem_cons_of_mem _ h1)

lemma fixLast_mem : ∀ (l : List Char) (x : Char), x ∈ fixLast l → x ∈ l ∨ x = 'c'
  | [], x, h => Or.inl h
  | [c], x, h => by
    by_cases hc : pyIsAlnum c
    · simp only [fixLast, if_pos hc] at h
      exact Or.inl h
    · simp only [fixLast, if_neg hc] at h
      exact Or.inr (List.mem_singleton.mp h)
  | c :: d :: t, x, h => by
    rcases List.mem_cons.mp h with h1 | h1
    · exact Or.inl (h1 ▸ List.mem_cons_self _ _)
    · rcases fixLast_mem (d :: t) x h1 with h2 | h2
      · exact Or.inl (List.mem_cons_of_mem _ h2)
      · exact Or.inr h2

lemma fixFirst_headD (l : List Char) (h : l ≠ []) :
    pyIsAlnum ((fixFirst l).headD '!') = true := by
  cases l with
  | nil => exact absurd rfl h
  | cons c r =>
    by_cases hc : pyIsAlnum c
    · simp [fixFirst, hc]
    · simp [fixFirst, hc]
      decide

lemma fixLast_getLastD : ∀ l : List Char, l ≠ [] → ∀ x : Char,
    pyIsAlnum ((fixLast l).getLastD x) = true
  | [], h, _ => absurd rfl h
  | [c], _, x => by
    by_cases hc : pyIsAlnum c
    · simp [fixLast, hc]
    · simp [fixLast, hc]
      decide
  | c :: d :: t, _, x => by
    show pyIsAlnum ((c :: fixLast (d :: t)).getLastD x) = true
    rw [List.getLastD_cons]
    exact fixLast_getLastD (d :: t) (List.cons_ne_nil _ _) c

/-! ## Claims C4 and C9 -/

lemma resolve_spec (course : List Char) :
    3 ≤ (resolveCollectionName course).length ∧
    (resolveCollectionName course).length ≤ 63 ∧
    pyIsAlnum ((resolveCollectionName course).headD '!') = true ∧
    pyIsAlnum ((resolveCollectionName course).getLastD '!') = true ∧
    ∀ c ∈ resolveCollectionName course, (isLowerAZ c || isDigit09 c || c == '_') = true := by
  simp only [resolveCollectionName]
  set s3 := collapseSep false (List.filter keepChar (List.map Char.toLower course)) with hs3
  set s4 := pyStripWith isUD s3 with hs4
  set s5 := (if s4.length < 3 then s4 ++ ('_' :: 'c' :: 'o' :: 'l' :: []) else s4) with hs5
  set s6 := (if 63 < s5.length then rdropWhileR isUD (s5.take 63) else s5) with hs6
  have hmem3 : ∀ c ∈ s3, (isLowerAZ c || isDigit09 c || c == '_') = true := by
    intro c hc
    rcases collapse_mem false _ c hc with h | ⟨hmemf, hsep⟩
    · simp [h]
    · have hk : keepChar c = true := (List.mem_filter.mp hmemf).2
      simp only [keepChar, Bool.or_eq_true] at hk
      simp only [isSep, Bool.or_eq_false_iff] at hsep
      rcases hk with ((((h | h) | h) | h) | h)
      · simp [h]
      · simp [h]
      · rw [h] at hsep; simp at hsep
      · rw [h] at hsep; simp at hsep
      · simp [h]
  have hna4 : noAdj s4 = true := by
    rw [hs4]
    exact noAdj_rdropWhileR _ _ (noAdj_dropWhile _ _ (noAdj_collapse false _))
  have hmem4 : ∀ c ∈ s4, (isLowerAZ c || isDigit09 c || c == '_') = true := by
    intro c hc
    rw [hs4] at hc
    exact hmem3 c (mem_dropWhile _ _ _ (rdropWhileR_subset _ _ _ hc))
  have hnd4 : ∀ c ∈ s4, c ≠ '-' := by
    intro c hc h
    subst h
    exact absurd (hmem4 '-' hc) (by decide)
  have hmem5 : ∀ c ∈ s5, (isLowerAZ c || isDigit09 c || c == '_') = true := by
    intro c hc
    rw [hs5] at hc
    by_cases h : s4.length < 3
    · rw [if_pos h] at hc
      rcases List.mem_append.mp hc with h1 | h1
      · exact hmem4 c h1
      · fin_cases h1 <;> decide
    · rw [if_neg h] at hc
      exact hmem4 c hc
  have hmem6 : ∀ c ∈ s6, (isLowerAZ c || isDigit09 c || c == '_') = true := by
    intro c hc
    rw [hs6] at hc
    by_cases h : 63 < s5.length
    · rw [if_pos h] at hc
      exact hmem5 c (List.take_subset _ _ (rdropWhileR_subset _ _ _ hc))
    · rw [if_neg h] at hc
      exact hmem5 c hc
  have hlen6 : 3 ≤ s6.length ∧ s6.length ≤ 63 := by
    rw [hs6, hs5]
    by_cases h : s4.length < 3
    · rw [if_pos h]
      rw [if_neg (by simp; omega)]
      constructor
      · simp
      · simp
        omega
    · rw [if_neg h]
      by_cases h2 : 63 < s4.length
      · rw [if_pos h2]
        have hT : (s4.take 63).length = 63 := by
          rw [List.length_take]
          omega
        constructor
        · have := rdropWhileR_length_ge (s4.take 63) (noAdj_take _ _ hna4)
            (fun c hc => hnd4 c (List.take_subset _ _ hc))
          omega
        · have := rdropWhileR_length_le isUD (s4.take 63)
          omega
      · rw [if_neg h2]
        omega
  have hne6 : s6 ≠ [] := by
    intro h
    rw [h] at hlen6
    simp at hlen6
  have hfflen : (fixFirst s6).length = s6.length := fixFirst_length s6
  have hfllen : (fixLast (fixFirst s6)).length = s6.length := by
    rw [fixLast_length, hfflen]
  obtain ⟨a, b, t, hab⟩ : ∃ a b t, fixFirst s6 = a :: b :: t := by
    rcases hf : fixFirst s6 with - | ⟨x, - | ⟨y, r⟩⟩
    · rw [hf] at hfflen
      simp at hfflen
      omega
    · rw [hf] at hfflen
      simp at hfflen
      omega
    · exact ⟨_, _, _, rfl⟩
  refine ⟨by omega, by omega, ?_, ?_, ?_⟩
  · have hhead := fixFirst_headD s6 hne6
    rw [hab] at hhead ⊢
    show pyIsAlnum ((a :: fixLast (b :: t)).headD '!') = true
    simp only [List.headD_cons] at hhead ⊢
    exact hhead
  · exact fixLast_getLastD (fixFirst s6) (by rw [hab]; exact List.cons_ne_nil _ _) '!'
  · intro c hc
    rcases fixLast_mem _ c hc with h1 | h1
    · rcases fixFirst_mem _ c h1 with h2 | h2
      · exact hmem6 c h2
      · subst h2; decide
    · subst h1; decide

/-- C4: for every course-name input, the collection identifier computed by
the normalization steps of `get_or_create_collection` has length between 3
and 63, its first and last characters are alphanumeric, and every character
belongs to `[a-z0-9_-]`. -/
theorem resolve_constraints (course : List Char) :
    3 ≤ (resolveCollectionName course).length ∧
    (resolveCollectionName course).length ≤ 63 ∧
    pyIsAlnum ((resolveCollectionName course).headD '!') = true ∧
    pyIsAlnum ((resolveCollectionName course).getLastD '!') = true ∧
    (resolveCollectionName course).all
      (fun c => isLowerAZ c || isDigit09 c || c == '_' || c == '-') = true := by
  obtain ⟨h1, h2, h3, h4, h5⟩ := resolve_spec course
  refine ⟨h1, h2, h3, h4, ?_⟩
  rw [List.all_eq_true]
  intro c hc
  show (isLowerAZ c || isDigit09 c || c == '_' || c == '-') = true
  rw [h5 c hc]
  rfl

/-- C9: the collection identifier never contains a hyphen: although the
stated constraint permits `[a-z0-9_-]`, the normalization collapses every
run of spaces, underscores and hyphens into a single underscore, so the
output always matches `[a-z0-9_]+` (the filler `'c'` is itself in `[a-z]`). -/
theorem resolve_no_hyphen (course : List Char) :
    (resolveCollectionName course).all
      (fun c => isLowerAZ c || isDigit09 c || c == '_') = true := by
  rw [List.all_eq_true]
  exact (resolve_spec course).2.2.2.2

-- Sanity checks of the resolver model, matching the spec's scenario B and
-- its documented collision case, plus the padding edge cases.
example : resolveCollectionName "Intro to CS!".toList = "intro_to_cs".toList := by decide
example : resolveCollectionName "intro-to-cs".toList = "intro_to_cs".toList := by decide
example : resolveCollectionName "!!!".toList = "ccol".toList := by decide
example : resolveCollectionName "".toList = "ccol".toList := by decide
example : resolveCollectionName "ab".toList = "ab_col".toList := by decide

/-! ## Vector store (ChromaVectorStore, src/services/vector_store.py)

The repository talks to ChromaDB through `get_or_create_collection`,
`collection.add` and `collection.query`; the ChromaDB library itself is not
part of the repository's sources, so the backing store is modelled from the
spec (§4.5 Vector Index): a collection is a list of records, `upsert`
replaces an existing record with the same `id`, and `query` returns up to `k`
records ordered by the distance metric (an empty or missing collection yields
an empty result). The id derivation, the empty-chunk early return and the
result formatting around those calls are modelled from the source. -/

/-- An indexed record `{id, vector, document, metadata = {source, chunk_id}}`.
Embedding vectors are abstracted as integer vectors; their values play no
role in the claims proved about the store. -/
structure VRecord where
  id : List Char
  vector : List Int
  document : List Char
  source : List Char
  chunk_id : Nat
deriving DecidableEq, Repr

/-- The persistent store: an association of collection names to records, in
creation order. -/
abbrev Store : Type := List (List Char × List VRecord)

/-- Look a collection up by name. -/
def lookupColl : Store → List Char → Option (List VRecord)
  | [], _ => none
  | (n, r) :: rest, name => if n = name then some r else lookupColl rest name

/-- Replace the contents of collection `name` (creating it at the end when
absent). -/
def setColl : Store → List Char → List VRecord → Store
  | [], name, recs => [(name, recs)]
  | (n, r) :: rest, name, recs =>
    if n = name then (n, recs) :: rest else (n, r) :: setColl rest name recs

/-- `client.get_or_create_collection(name)`: returns the store (with the
collection lazily created) and the collection's current records. -/
def getOrCreate (st : Store) (name : List Char) : Store × List VRecord :=
  match lookupColl st name with
  | some r => (st, r)
  | none => (st ++ [(name, [])], [])

/-- Modelled from the spec: `upsert` of the Vector Index (§4.5) for a single
record — "an existing record with the same `id` is replaced, not
duplicated". (The source calls ChromaDB's `collection.add`; ChromaDB is not
in the repository's sources.) -/
def upsertOne (recs : List VRecord) (n : VRecord) : List VRecord :=
  if ∃ r ∈ recs, r.id = n.id then recs.map (fun r => if r.id = n.id then n else r)
  else recs ++ [n]

/-- Modelled from the spec: `upsert` over a batch of records, in order. -/
def upsertMany (recs : List VRecord) (ns : List VRecord) : List VRecord :=
  ns.foldl upsertOne recs

/-- Squared euclidean distance, the model's stand-in for the index's
dissimilarity score (lower = more similar). -/
def sqDist (a b : List Int) : Int :=
  ((a.zip b).map (fun p => (p.1 - p.2) * (p.1 - p.2))).sum

/-- Modelled from the spec: `query` of the Vector Index (§4.5) — "returns up
to `k` nearest records by the index's distance metric, ordered best-first;
returns fewer than `k` if the collection holds fewer records; returns empty
if the collection is empty". -/
def queryColl (recs : List VRecord) (qv : List Int) (k : Nat) : List VRecord :=
  (recs.insertionSort (fun a b => sqDist qv a.vector ≤ sqDist qv b.vector)).take k

/-- The record id `f"{course_name}_{source}_{chunk_id}"` followed by the
sanitization `re.sub(r'[^a-zA-Z0-9_-]', '_', id_str)`
(`ChromaVectorStore.add_documents`). -/
def deriveId (course source : List Char) (cid : Nat) : List Char :=
  (course ++ '_' :: (source ++ '_' :: Nat.toDigits 10 cid)).map
    (fun c => if isLowerAZ c || ('A' ≤ c && c ≤ 'Z') || isDigit09 c || c == '_' || c == '-'
      then c else '_')

/-- `ChromaVectorStore.add_documents(course_name, chunks)`: an empty chunk
list returns immediately; otherwise the course's collection is resolved and
lazily created, one record per chunk is built (embedding each chunk's text
with the shared model, abstracted as the `embed` argument) and written
through the store's upsert. -/
def add_documents (embed : List Char → List Int) (st : Store) (course : List Char)
    (chunks : List Chunk) : Store :=
  if chunks.isEmpty then st
  else
    let cname := resolveCollectionName course
    let pair := getOrCreate st cname
    let newRecs := chunks.map (fun ch =>
      ⟨deriveId course ch.source ch.chunk_id, embed ch.text, ch.text, ch.source, ch.chunk_id⟩)
    setColl pair.1 cname (upsertMany pair.2 newRecs)

/-- A retrieved chunk `{text, source, distance}`
(`ChromaVectorStore.semantic_search`'s result formatting). -/
structure Retrieved where
  text : List Char
  source : List Char
  distance : Int
deriving DecidableEq, Repr

/-- `ChromaVectorStore.semantic_search(course_name, query, n_results)`:
resolve (and lazily create) the collection, embed the query, query the index
for the top `n_results`, and format each returned record as
`{text: document, source: metadata.source, distance}`. -/
def semantic_search (embed : List Char → List Int) (st : Store) (course query : List Char)
    (n_results : Nat) : List Retrieved :=
  let recs := (getOrCreate st (resolveCollectionName course)).2
  let qv := embed query
  (queryColl recs qv n_results).map (fun r => ⟨r.document, r.source, sqDist qv r.vector⟩)

/-! ## Claim C10 -/

/-- C10: calling `add_documents` with an empty chunk list is a no-op on the
vector store, for every store, course name and embedding function: nothing is
embedded (the result does not depend on `embed` at all), no record is
written, and no collection is created — the store is returned unchanged. -/
theorem add_documents_empty_noop (embed : List Char → List Int) (st : Store)
    (course : List Char) : add_documents embed st course [] = st := rfl

/-! ## Claim C6 -/

/-- C6: querying a collection that has never been populated — whether the
course's collection does not exist yet or exists but is empty — returns the
empty sequence of retrieved chunks (and in this total model in particular
raises no error). -/
theorem semantic_search_empty (embed : List Char → List Int) (st : Store)
    (course query : List Char) (k : Nat)
    (h : lookupColl st (resolveCollectionName course) = none ∨
      lookupColl st (resolveCollectionName course) = some []) :
    semantic_search embed st course query k = [] := by
  unfold semantic_search getOrCreate
  rcases h with h | h <;> rw [h] <;> simp [queryColl, List.insertionSort]

/-- C6 (witness): querying the course `"math"` against the empty store. -/
theorem semantic_search_empty_witness :
    (lookupColl ([] : Store) (resolveCollectionName "math".toList) = none ∨
      lookupColl ([] : Store) (resolveCollectionName "math".toList) = some []) ∧
    semantic_search (fun _ => []) ([] : Store) "math".toList "q".toList 5 = [] :=
  ⟨Or.inl rfl,
    semantic_search_empty (fun _ => []) [] "math".toList "q".toList 5 (Or.inl rfl)⟩

/-! ## Claim C2 -/

/-- The number of records carrying id `i`. -/
def countId (recs : List VRecord) (i : List Char) : Nat :=
  (recs.filter (fun r => r.id = i)).length

lemma lookupColl_setColl (st : Store) (name : List Char) (recs : List VRecord) :
    lookupColl (setColl st name recs) name = some recs := by
  induction st with
  | nil => simp [setColl, lookupColl]
  | cons p rest ih =>
    obtain ⟨n, r⟩ := p
    by_cases h : n = name
    · simp [setColl, lookupColl, h]
    · simp only [setColl, lookupColl, if_neg h]
      exact ih

lemma upsertOne_id_unique (recs : List VRecord) (n r : VRecord)
    (hr : r ∈ upsertOne recs n) (hid : r.id = n.id) : r = n := by
  unfold upsertOne at hr
  split_ifs at hr with h
  · obtain ⟨x, -, hx⟩ := List.mem_map.mp hr
    by_cases hxid : x.id = n.id
    · rw [if_pos hxid] at hx
      exact hx.symm
    · rw [if_neg hxid] at hx
      rw [← hx] at hid
      exact absurd hid hxid
  · rcases List.mem_append.mp hr with h1 | h1
    · exact absurd ⟨r, h1, hid⟩ h
    · exact List.mem_singleton.mp h1

lemma countId_map_upsert (recs : List VRecord) (n : VRecord) :
    countId (recs.map (fun r => if r.id = n.id then n else r)) n.id =
      countId recs n.id := by
  induction recs with
  | nil => rfl
  | cons x xs ih =>
    by_cases h : x.id = n.id
    · simp only [countId, List.map_cons, if_pos h, List.filter_cons] at ih ⊢
      rw [if_pos (by simp), if_pos (by simp [h])]
      simpa [countId] using ih
    · simp only [countId, List.map_cons, if_neg h, List.filter_cons] at ih ⊢
      rw [if_neg (by simp [h]), if_neg (by simp [h])]
      exact ih

lemma countId_upsertOne (recs : List VRecord) (n : VRecord)
    (h : countId recs n.id ≤ 1) : countId (upsertOne recs n) n.id = 1 := by
  unfold upsertOne
  split_ifs with hex
  · rw [countId_map_upsert]
    obtain ⟨r, hr, hrid⟩ := hex
    have : 1 ≤ countId recs n.id := by
      have : r ∈ recs.filter (fun x => x.id = n.id) :=
        List.mem_filter.mpr ⟨hr, by simp [hrid]⟩
      have := List.length_pos.mpr (List.ne_nil_of_mem this)
      simpa [countId] using this
    omega
  · have hzero : countId recs n.id = 0 := by
      by_contra hne
      have : recs.filter (fun r => r.id = n.id) ≠ [] := by
        intro hnil
        simp [countId, hnil] at hne
      obtain ⟨r, hr⟩ := List.exists_mem_of_ne_nil _ this
      have := List.mem_filter.mp hr
      exact hex ⟨r, this.1, by simpa using this.2⟩
    simp only [countId, List.filter_append, List.length_append] at *
    rw [hzero]
    simp

lemma mem_queryColl (recs : List VRecord) (qv : List Int) (k : Nat) (r : VRecord)
    (h : r ∈ queryColl recs qv k) : r ∈ recs :=
  (List.perm_insertionSort _ recs).mem_iff.mp (List.take_subset _ _ h)

lemma add_documents_single_lookup (embed : List Char → List Int) (st : Store)
    (course src : List Char) (cid : Nat) (t : List Char) :
    lookupColl (add_documents embed st course [⟨t, src, cid⟩]) (resolveCollectionName course) =
      some (upsertOne ((lookupColl st (resolveCollectionName course)).getD [])
        ⟨deriveId course src cid, embed t, t, src, cid⟩) := by
  simp only [add_documents, getOrCreate]
  rw [if_neg (by simp)]
  rcases hg : lookupColl st (resolveCollectionName course) with - | r0 <;>
    · simp only [hg, Option.getD_some, Option.getD_none]
      rw [lookupColl_setColl]
      rfl

/-- C2: indexing (via `add_documents`) a chunk with the same
`(course_name, source, chunk_id)`-derived record id as an already-indexed
record, but with different text, replaces the existing record rather than
adding a second one: afterwards the collection holds exactly one record with
that id (its document is the new text), and no query ever returns the old
version alongside it. The hypothesis says the starting collection is
well-formed (at most one record already carries the id). -/
theorem add_documents_upsert (embed : List Char → List Int) (st : Store)
    (course src : List Char) (cid : Nat) (t1 t2 : List Char) (hne : t1 ≠ t2)
    (hcount : countId ((lookupColl st (resolveCollectionName course)).getD [])
      (deriveId course src cid) ≤ 1) :
    countId ((lookupColl
        (add_documents embed (add_documents embed st course [⟨t1, src, cid⟩])
          course [⟨t2, src, cid⟩])
        (resolveCollectionName course)).getD []) (deriveId course src cid) = 1 ∧
    (∀ r ∈ (lookupColl
        (add_documents embed (add_documents embed st course [⟨t1, src, cid⟩])
          course [⟨t2, src, cid⟩])
        (resolveCollectionName course)).getD [],
      r.id = deriveId course src cid → r.document = t2) ∧
    (∀ (qv : List Int) (k : Nat),
      ∀ r ∈ queryColl ((lookupColl
          (add_documents embed (add_documents embed st course [⟨t1, src, cid⟩])
            course [⟨t2, src, cid⟩])
          (resolveCollectionName course)).getD []) qv k,
        r.id = deriveId course src cid → r.document ≠ t1) := by
  have h1 := add_documents_single_lookup embed st course src cid t1
  have h2 := add_documents_single_lookup embed
    (add_documents embed st course [⟨t1, src, cid⟩]) course src cid t2
  rw [h1] at h2
  rw [h2]
  simp only [Option.getD_some]
  have hc1 : countId (upsertOne ((lookupColl st (resolveCollectionName course)).getD [])
      ⟨deriveId course src cid, embed t1, t1, src, cid⟩) (deriveId course src cid) = 1 :=
    countId_upsertOne _ _ hcount
  have hc2 : countId (upsertOne (upsertOne
      ((lookupColl st (resolveCollectionName course)).getD [])
      ⟨deriveId course src cid, embed t1, t1, src, cid⟩)
      ⟨deriveId course src cid, embed t2, t2, src, cid⟩) (deriveId course src cid) = 1 :=
    countId_upsertOne _ _ (by rw [hc1])
  refine ⟨hc2, ?_, ?_⟩
  · intro r hr hid
    have := upsertOne_id_unique _ _ _ hr hid
    rw [this]
  · intro qv k r hr hid
    have := upsertOne_id_unique _ _ _ (mem_queryColl _ _ _ _ hr) hid
    rw [this]
    exact fun h => hne (h.symm)

/-- C2 (witness): two single-chunk uploads for course `"math"`, source
`"doc.pdf"`, chunk id 0, first with text `"old"` then with text `"new"`,
starting from the empty store. -/
theorem add_documents_upsert_witness :
    ("old".toList ≠ "new".toList) ∧
    countId ((lookupColl ([] : Store) (resolveCollectionName "math".toList)).getD [])
      (deriveId "math".toList "doc.pdf".toList 0) ≤ 1 ∧
    countId ((lookupColl
        (add_documents (fun _ => [0])
          (add_documents (fun _ => [0]) ([] : Store) "math".toList
            [⟨"old".toList, "doc.pdf".toList, 0⟩])
          "math".toList [⟨"new".toList, "doc.pdf".toList, 0⟩])
        (resolveCollectionName "math".toList)).getD [])
      (deriveId "math".toList "doc.pdf".toList 0) = 1 :=
  ⟨by decide, by decide,
    (add_documents_upsert (fun _ => [0]) [] "math".toList "doc.pdf".toList 0
      "old".toList "new".toList (by decide) (by decide)).1⟩

/-! ## Text extraction (PDFProcessor.extract_text_from_pdf / process_pdf)

The pymupdf backend is not part of the repository's sources; the outcome of
`fitz.open(pdf_path)` (and of the page iteration) is abstracted as an
`Except` input: `Except.error` stands for any exception raised while opening
or parsing the file, `Except.ok` for a successfully parsed document. The
`try`/`except` of `extract_text_from_pdf` and the early return of
`process_pdf` are modelled from the source. -/

/-- A parsed PDF page's extracted text (`page.get_text()`). -/
structure PdfPage where
  text : List Char
deriving DecidableEq, Repr

/-- A successfully opened PDF document. -/
structure PdfDoc where
  pages : List PdfPage
deriving DecidableEq, Repr

/-- The page marker `f"\n\n--- Page {page_num + 1} ---\n\n"`. -/
def pageMarker (n : Nat) : List Char :=
  "\n\n--- Page ".toList ++ Nat.toDigits 10 n ++ " ---\n\n".toList

/-- `PDFProcessor.extract_text_from_pdf`: concatenate every page's text
behind its 1-based page marker; any exception (the `Except.error` case) is
caught and yields the empty string. -/
def extract_text_from_pdf (opened : Except (List Char) PdfDoc) : List Char :=
  match opened with
  | Except.error _ => []
  | Except.ok doc =>
    (doc.pages.enum.map (fun pr => pageMarker (pr.1 + 1) ++ pr.2.text)).flatten

/-- `PDFProcessor.process_pdf(pdf_path, filename)`: extract, return `[]` when
the text is empty (`if not text`), otherwise chunk. -/
def PDFProcessor.process_pdf (p : PDFProcessor) (opened : Except (List Char) PdfDoc)
    (filename : List Char) : Option (List Chunk) :=
  let text := extract_text_from_pdf opened
  if text.isEmpty then some []
  else p.chunk_text text filename

/-! ## Claim C7 -/

/-- C7: if the PDF cannot be opened or parsed (any raised exception,
modelled by the `Except.error` input), `extract_text_from_pdf` returns the
empty string without raising past the extractor boundary, and `process_pdf`
consequently returns the empty chunk list (zero chunks) for that file — for
every processor configuration, error and file name. -/
theorem extract_error_yields_no_chunks (p : PDFProcessor) (e : List Char)
    (filename : List Char) :
    extract_text_from_pdf (Except.error e) = [] ∧
    p.process_pdf (Except.error e) filename = some [] :=
  ⟨rfl, rfl⟩

-- Sanity checks of the extraction model.
example : extract_text_from_pdf (Except.ok ⟨[⟨"hi".toList⟩]⟩) =
    "\n\n--- Page 1 ---\n\nhi".toList := by decide
